import Mathlib

/-!
A verification development for `scripts/build_diff.py`, the price-extraction
and reconciliation engine of the iphone-diff repository.

The Python source is shallowly embedded: pure string-processing helpers become
Lean functions over `List Char`, the specific regular expressions of the script
are modelled by direct left-to-right scanners with the same matching semantics,
dictionaries become association lists preserving insertion order, and the
network fetch / HTML parse collaborators (declared external in the design
notes) become function parameters.  Character classes `\d`, `\s`, `\w` are
modelled by their ASCII meaning (`Char.isDigit`, `Char.isWhitespace`,
alphanumeric-or-underscore); all vocabulary and marker strings in the program
are ASCII or single CJK literals, for which this agrees with the source.
Scanners that skip past a whole match are written with a fuel argument
(initialised to the text length, which bounds the number of steps) so that
every definition is structurally recursive and kernel-evaluable.
-/

namespace BuildDiff

/-- `\d` character class (ASCII model). -/
def isDigitC (c : Char) : Bool := c.isDigit

/-- `\s` character class (ASCII model). -/
def isWsC (c : Char) : Bool := c.isWhitespace

/-- `\w` character class (ASCII model), used for `\b` word boundaries. -/
def isWordC (c : Char) : Bool := c.isAlphanum || c = '_'

/-- `[\d,]`: a digit or a thousands separator. -/
def isDigitComma (c : Char) : Bool := isDigitC c || c = ','

/-- Numeric value of a digit-and-comma token after `m.replace(",", "")` and
`int(...)`: fold the digits, commas dropped. -/
def tokenVal (t : List Char) : Nat :=
  (t.filter isDigitC).foldl (fun n c => n * 10 + (c.toNat - 48)) 0

/-- The text that follows a candidate yen match: past the maximal `[\d,]` run
and the maximal whitespace run after it. -/
def afterRun (rest : List Char) : List Char :=
  (rest.dropWhile isDigitComma).dropWhile isWsC

/-- Fuelled scanner for `re.findall(r"(\d[\d,]*)\s*円", text)`: at each
position, a digit, then the maximal run of `[\d,]`, then optional whitespace,
then the literal `円`; on success scanning resumes after the `円`, on failure
at the next character.  (The regex cannot succeed with a shorter run: a
backtracked-away digit or comma matches neither `\s` nor `円`.) -/
def yenAux : Nat → List Char → List (List Char)
  | 0, _ => []
  | _, [] => []
  | fuel + 1, c :: rest =>
    if isDigitC c then
      if (afterRun rest).head? = some '円' then
        (c :: rest.takeWhile isDigitComma) :: yenAux fuel (afterRun rest).tail
      else yenAux fuel rest
    else yenAux fuel rest

/-- The matched numeric substrings of `re.findall(r"(\d[\d,]*)\s*円", text)`,
in left-to-right order. -/
def yenTokens (l : List Char) : List (List Char) := yenAux l.length l

/-- Embedding of `parse_yen_values` (build_diff.py lines 40-47). -/
def parse_yen_values (text : List Char) : List Nat :=
  (yenTokens text).map tokenVal

theorem afterRun_length (rest : List Char) : (afterRun rest).length ≤ rest.length :=
  le_trans (List.dropWhile_sublist isWsC).length_le (List.dropWhile_sublist isDigitComma).length_le

theorem afterRun_tail_length {rest : List Char} (h : (afterRun rest).head? = some '円') :
    (afterRun rest).tail.length < rest.length := by
  have h1 := afterRun_length rest
  match h2 : afterRun rest with
  | [] => rw [h2] at h; simp at h
  | a :: t => rw [h2] at h1; simpa using lt_of_lt_of_le (Nat.lt_succ_self t.length) h1

/-- The fuelled scanner computes `yenTokens` whenever the fuel covers the text
length. -/
theorem yenAux_eq_yenTokens : ∀ (f : Nat) (l : List Char), l.length ≤ f →
    yenAux f l = yenTokens l := by
  intro f
  induction f using Nat.strong_induction_on with
  | _ f ih =>
    intro l hl
    match f, l with
    | f, [] => unfold yenTokens; cases f <;> rfl
    | 0, c :: rest => simp at hl
    | f + 1, c :: rest =>
      have hrest : rest.length ≤ f := by simpa using hl
      show yenAux (f + 1) (c :: rest) = yenAux (rest.length + 1) (c :: rest)
      simp only [yenAux]
      by_cases hd : isDigitC c
      · rw [if_pos hd, if_pos hd]
        by_cases hy : (afterRun rest).head? = some '円'
        · rw [if_pos hy, if_pos hy]
          have ht := afterRun_tail_length hy
          rw [ih f (by omega) _ (by omega), ih rest.length (by omega) _ (by omega)]
        · rw [if_neg hy, if_neg hy]
          rw [ih f (by omega) _ hrest, ih rest.length (by omega) _ le_rfl]
      · rw [if_neg hd, if_neg hd]
        rw [ih f (by omega) _ hrest, ih rest.length (by omega) _ le_rfl]

/-- Unfolding rule for `yenTokens` on a cons cell. -/
theorem yenTokens_cons (c : Char) (rest : List Char) :
    yenTokens (c :: rest) =
      if isDigitC c then
        if (afterRun rest).head? = some '円' then
          (c :: rest.takeWhile isDigitComma) :: yenTokens (afterRun rest).tail
        else yenTokens rest
      else yenTokens rest := by
  show yenAux (rest.length + 1) (c :: rest) = _
  simp only [yenAux]
  by_cases hd : isDigitC c
  · rw [if_pos hd, if_pos hd]
    by_cases hy : (afterRun rest).head? = some '円'
    · have ht := afterRun_tail_length hy
      rw [if_pos hy, if_pos hy, yenAux_eq_yenTokens rest.length _ (by omega)]
    · rw [if_neg hy, if_neg hy, yenAux_eq_yenTokens rest.length _ le_rfl]
  · rw [if_neg hd, if_neg hd, yenAux_eq_yenTokens rest.length _ le_rfl]

theorem yenTokens_nil : yenTokens [] = [] := rfl

/-! ### String helpers: `norm_spaces` and Python's `in` operator -/

/-- One pass of `re.sub(r"\s+", " ", s)`: each maximal whitespace run becomes
a single space; the flag records whether the previous character was
whitespace. -/
def squeezeWs : List Char → Bool → List Char
  | [], _ => []
  | c :: rest, prevWs =>
    if isWsC c then
      if prevWs then squeezeWs rest true else ' ' :: squeezeWs rest true
    else c :: squeezeWs rest false

/-- Python `str.strip()`: drop leading and trailing whitespace. -/
def stripWs (l : List Char) : List Char :=
  ((l.dropWhile isWsC).reverse.dropWhile isWsC).reverse

/-- Embedding of `norm_spaces` (build_diff.py lines 50-51). -/
def norm_spaces (l : List Char) : List Char := stripWs (squeezeWs l false)

/-- Substring occurrence at any position: scan the haystack suffixes. -/
def containsAuxL (needle : List Char) : List Char → Bool
  | [] => needle.isEmpty
  | c :: rest => needle.isPrefixOf (c :: rest) || containsAuxL needle rest

/-- Python's substring operator `needle in hay`. -/
def containsS (hay : List Char) (needle : String) : Bool :=
  containsAuxL needle.toList hay

/-- `" ".join(cols)`. -/
def joinSpace : List (List Char) → List Char
  | [] => []
  | [c] => c
  | c :: c' :: rest => c ++ ' ' :: joinSpace (c' :: rest)

/-- The row-string built at build_diff.py line 200-203: normalize each cell
text and join the cells with single spaces. -/
def rowString (cols : List (List Char)) : List Char :=
  joinSpace (cols.map norm_spaces)

/-! ### Capacity extraction

`extract_capacity` uses `re.search(r"\b(128|256|512)\s*G\s*B\b|\b(1|2)\s*T\s*B\b", s, re.IGNORECASE)`:
leftmost match wins, branch `A` (GB) is preferred over branch `B` (TB) at equal
positions, and inside a branch the digit alternatives are tried in pattern
order.  Greedy `\s*` needs no backtracking because a surrendered whitespace
character can never match the letter that follows.  The retailer scan uses
`re.compile(r"\b(128GB|256GB|512GB|1TB|2TB)\b", re.IGNORECASE).finditer`:
contiguous tokens only. -/

/-- Case-insensitive literal prefix match (pattern given in lowercase);
returns the remaining text on success. -/
def stripPrefixCI : List Char → List Char → Option (List Char)
  | [], s => some s
  | _ :: _, [] => none
  | p :: ps, c :: cs => if c.toLower = p then stripPrefixCI ps cs else none

/-- A `\b` word boundary holds after a word character at this point: the rest
is empty or starts with a non-word character. -/
def boundaryOk (s : List Char) : Bool :=
  match s.head? with
  | none => true
  | some c => !isWordC c

/-- `\s*L\s*L'...`: for each remaining pattern letter, skip whitespace and
match the letter case-insensitively. -/
def matchLetters : List Char → List Char → Option (List Char)
  | [], s => some s
  | l :: ls, s =>
    match s.dropWhile isWsC with
    | [] => none
    | c :: s2 => if c.toLower = l then matchLetters ls s2 else none

/-- One alternative of the `extract_capacity` pattern at the current
position: the digit group, then whitespace-tolerant unit letters, then the
trailing `\b`. -/
def tryAlt (digits : List Char) (letters : List Char) (canon : String)
    (s : List Char) : Option String :=
  match stripPrefixCI digits s with
  | none => none
  | some rem =>
    match matchLetters letters rem with
    | none => none
    | some rem2 => if boundaryOk rem2 then some canon else none

/-- All alternatives of the `extract_capacity` pattern at the current
position, in pattern order. -/
def tryCapAt (s : List Char) : Option String :=
  (tryAlt ['1','2','8'] ['g','b'] "128GB" s).orElse fun _ =>
  (tryAlt ['2','5','6'] ['g','b'] "256GB" s).orElse fun _ =>
  (tryAlt ['5','1','2'] ['g','b'] "512GB" s).orElse fun _ =>
  (tryAlt ['1'] ['t','b'] "1TB" s).orElse fun _ =>
  (tryAlt ['2'] ['t','b'] "2TB" s)

/-- `re.search` scan for `extract_capacity`: try the pattern at each position
(where the leading `\b` requires the previous character to be non-word),
moving right on failure. -/
def extractCapacityAux : List Char → Bool → Option String
  | [], _ => none
  | c :: rest, prevW =>
    match (if prevW then none else tryCapAt (c :: rest)) with
    | some cap => some cap
    | none => extractCapacityAux rest (isWordC c)

/-- Embedding of `extract_capacity` (build_diff.py lines 54-67): first match
of the capacity pattern, in canonical uppercase form. -/
def extract_capacity (s : List Char) : Option String :=
  extractCapacityAux s false

/-- One alternative of the retailer capacity pattern
`\b(128GB|256GB|512GB|1TB|2TB)\b` at the current position: a contiguous
case-insensitive literal followed by `\b`. -/
def tryLit (w : List Char) (canon : String) (s : List Char) :
    Option (String × List Char) :=
  match stripPrefixCI w s with
  | none => none
  | some rem => if boundaryOk rem then some (canon, rem) else none

/-- All alternatives of the retailer capacity pattern at the current
position, in pattern order. -/
def tryVocab (s : List Char) : Option (String × List Char) :=
  (tryLit ['1','2','8','g','b'] "128GB" s).orElse fun _ =>
  (tryLit ['2','5','6','g','b'] "256GB" s).orElse fun _ =>
  (tryLit ['5','1','2','g','b'] "512GB" s).orElse fun _ =>
  (tryLit ['1','t','b'] "1TB" s).orElse fun _ =>
  (tryLit ['2','t','b'] "2TB" s)

/-- Fuelled `finditer` scan of the retailer capacity pattern
(`cap_pat.finditer(script_text)`, build_diff.py line 156).  Each hit yields
`m.group(1).upper()` together with the suffix of the text starting at
`m.end()` (so `text[m.end() : m.end() + w]` is `take w` of that suffix);
scanning resumes at `m.end()`. -/
def capAux : Nat → List Char → Bool → List (String × List Char)
  | 0, _, _ => []
  | _, [], _ => []
  | fuel + 1, c :: rest, prevW =>
    match (if prevW then none else tryVocab (c :: rest)) with
    | some (canon, rem) => (canon, rem) :: capAux fuel rem true
    | none => capAux fuel rest (isWordC c)

/-- The capacity hits of the retailer scan, in order of appearance, each with
the text suffix that follows it. -/
def capMatches (l : List Char) : List (String × List Char) :=
  capAux l.length l false

/-- Embedding of the model-keyword chain of `scrape_morimori_new_prices`
(build_diff.py lines 212-222). -/
def inferModel (row : List Char) : Option String :=
  if containsS row "Pro Max" || containsS row "ProMax" then some "iPhone 17 Pro Max"
  else if containsS row "Pro" then some "iPhone 17 Pro"
  else if containsS row "Air" then some "iPhone Air"
  else if containsS row "iPhone 17" || containsS row "iPhone17" then some "iPhone 17"
  else none

/-! ### Retailer price locator (`scrape_apple_prices_by_capacity`) -/

/-- Python `min` of a list, `none` when empty. -/
def minList : List Nat → Option Nat
  | [] => none
  | h :: t => some (t.foldl Nat.min h)

/-- The plausible amounts of a capacity's window (`big`, build_diff.py lines
140-142): the parsed yen values of the 2000-character window starting at the
match end, filtered to the plausibility floor. -/
def windowAmounts (suffix : List Char) : List Nat :=
  (parse_yen_values (suffix.take 2000)).filter (fun v => 50000 ≤ v)

/-- Embedding of the local `pick_price_after` (build_diff.py lines 138-145),
expressed on the text suffix that starts at the capacity match end: the
candidate is the minimum plausible amount of the window, if any. -/
def pick_price_after (suffix : List Char) : Option Nat :=
  minList (windowAmounts suffix)

/-- Accumulation of `temp` (build_diff.py lines 161-167): visit the capacity
hits in order of appearance; when the capacity has no recorded price yet and
the window yields a candidate, record it (Python dict insertion appends). -/
def buildTemp : List (String × List Char) → List (String × Nat) → List (String × Nat)
  | [], temp => temp
  | (cap, suf) :: rest, temp =>
    if (temp.lookup cap).isSome then buildTemp rest temp
    else
      match pick_price_after suf with
      | some p => buildTemp rest (temp ++ [(cap, p)])
      | none => buildTemp rest temp

/-- The canonical capacity tier order (`cap_order`, build_diff.py line 172). -/
def CAP_ORDER : List String := ["128GB", "256GB", "512GB", "1TB", "2TB"]

/-- The monotonicity-repair pass (build_diff.py lines 173-181): visit tiers in
canonical order, keep a tier when its price is at least the last kept price,
discard it otherwise. -/
def cleanPass : List String → Nat → List (String × Nat) → List (String × Nat)
  | [], _, _ => []
  | cap :: caps, last, temp =>
    match temp.lookup cap with
    | none => cleanPass caps last temp
    | some p => if last ≤ p then (cap, p) :: cleanPass caps p temp
                else cleanPass caps last temp

/-- `cleaned` (build_diff.py lines 172-181) with the initial `last = 0`. -/
def cleaned (temp : List (String × Nat)) : List (String × Nat) :=
  cleanPass CAP_ORDER 0 temp

/-- `APPLE_BUY_PAGES` (build_diff.py lines 16-21); note that the Pro and the
Pro Max rows carry the same URL. -/
def APPLE_BUY_PAGES : List (String × String) :=
  [("iPhone 17", "https://www.apple.com/jp/shop/buy-iphone/iphone-17"),
   ("iPhone 17 Pro", "https://www.apple.com/jp/shop/buy-iphone/iphone-17-pro"),
   ("iPhone 17 Pro Max", "https://www.apple.com/jp/shop/buy-iphone/iphone-17-pro"),
   ("iPhone Air", "https://www.apple.com/jp/shop/buy-iphone/iphone-air")]

/-- The `(model, capacity) → price` entries one model contributes, given the
concatenated script text of its page. -/
def appleEntriesFor (model : String) (text : List Char) : List ((String × String) × Nat) :=
  (cleaned (buildTemp (capMatches text) [])).map (fun p => ((model, p.1), p.2))

/-- Embedding of `scrape_apple_prices_by_capacity` (build_diff.py lines
124-186).  The fetch and script-concatenation collaborators are abstracted as
`scriptOf : url → concatenated script text`; the result dict is an
association list in insertion order (its keys are unique by construction). -/
def scrape_apple_prices_by_capacity (scriptOf : String → List Char) :
    List ((String × String) × Nat) :=
  (APPLE_BUY_PAGES.map (fun mu => appleEntriesFor mu.1 (scriptOf mu.2))).flatten

/-! ### Reseller price locator (`scrape_morimori_new_prices`) -/

/-- `out[key] = max(out.get(key, 0), price)` on an insertion-ordered
association list with `Nat` prices. -/
def setMax : List ((String × String) × Nat) → (String × String) → Nat →
    List ((String × String) × Nat)
  | [], k, p => [(k, p)]
  | (k', v) :: rest, k, p =>
    if k' = k then (k', Nat.max v p) :: rest else (k', v) :: setMax rest k p

/-- Processing of one table row (build_diff.py lines 199-231), from the list
of its cell texts: require the brand-new marker, a capacity, a recognized
model and at least one yen amount, then record the maximum amount of the
row. -/
def processRow (out : List ((String × String) × Nat)) (cols : List (List Char)) :
    List ((String × String) × Nat) :=
  if cols.isEmpty then out
  else
    let row := rowString cols
    if !containsS row "新品" then out
    else
      match extract_capacity row with
      | none => out
      | some cap =>
        match inferModel row with
        | none => out
        | some model =>
          match parse_yen_values row with
          | [] => out
          | y :: ys => setMax out (model, cap) (ys.foldl Nat.max y)

/-- Embedding of `scrape_morimori_new_prices` (build_diff.py lines 192-233).
The fetch and table-parsing collaborators are abstracted: the input is the
document's table rows in order, each row the list of its cell texts. -/
def scrape_morimori_new_prices (rows : List (List (List Char))) :
    List ((String × String) × Nat) :=
  rows.foldl processRow []

/-! ### Reconciler (`build_diff_rows`) -/

/-- One row of `data/diff.json` (build_diff.py lines 247-255). -/
structure DiffRow where
  model : String
  capacity : String
  apple_price : Nat
  morimori_new_price : Nat
  diff : Int
deriving DecidableEq

/-- Python's ascending order on `(model, capacity)` string tuples
(lexicographic, strings compared by code point). -/
def keyLE (a b : String × String) : Bool :=
  decide (a.1 < b.1) || (decide (a.1 = b.1) && decide (a.2 ≤ b.2))

/-- `sorted(set(apple.keys()) & set(morimori.keys()))` for dicts embedded as
association lists with unique keys. -/
def interKeys (apple morimori : List ((String × String) × Nat)) :
    List (String × String) :=
  ((apple.map Prod.fst).filter (fun k => (morimori.lookup k).isSome)).mergeSort keyLE

/-- The row built for one common key (build_diff.py lines 246-255):
`diff = morimori[key] - apple[key]` (both lookups succeed for a key of the
intersection; `getD 0` is the total-function rendering). -/
def mkDiffRow (apple morimori : List ((String × String) × Nat))
    (k : String × String) : DiffRow :=
  { model := k.1, capacity := k.2,
    apple_price := (apple.lookup k).getD 0,
    morimori_new_price := (morimori.lookup k).getD 0,
    diff := ((morimori.lookup k).getD 0 : Int) - ((apple.lookup k).getD 0 : Int) }

/-- Embedding of `build_diff_rows` (build_diff.py lines 239-258): one row per
key of the sorted intersection, then a stable sort by descending diff
(Python's `list.sort(key=..., reverse=True)` is stable). -/
def build_diff_rows (apple morimori : List ((String × String) × Nat)) :
    List DiffRow :=
  ((interKeys apple morimori).map (mkDiffRow apple morimori)).mergeSort
    (fun x y => decide (y.diff ≤ x.diff))

/-! ### Fallible pipeline (`fetch` and `main`)

`fetch` (build_diff.py lines 34-37) raises on a network error or a non-2xx
status (`raise_for_status`); exceptions propagate uncaught through the
scrapers and `main`.  The fetch collaborator is embedded as a function into
`Except ε`; the HTML-parse collaborators stay total.  `main` (lines 261-293)
writes `data/diff.json` and `data/meta.json` only after both scrapes have
returned, so the run's file writes are modelled as the success value of the
`Except` computation: an error value means the run aborted with no file
written. -/

/-- `MORIMORI_URL` (build_diff.py line 12). -/
def MORIMORI_URL : String :=
  "https://www.morimori-kaitori.jp/search?sk=iPhone17&page=1&price-list=true"

/-- `scrape_apple_prices_by_capacity` with a fallible fetch: the for-loop
fetches each model page in dict order and aborts at the first failure.
`scriptTextOf` is the external collaborator taking the page HTML to the
concatenated script text. -/
def scrapeAppleE {ε : Type} (f : String → Except ε (List Char))
    (scriptTextOf : List Char → List Char) :
    Except ε (List ((String × String) × Nat)) :=
  APPLE_BUY_PAGES.foldlM (fun out mu => do
    let html ← f mu.2
    pure (out ++ appleEntriesFor mu.1 (scriptTextOf html))) []

/-- `scrape_morimori_new_prices` with a fallible fetch; `rowsOfHtml` is the
external collaborator taking the document HTML to its table rows (each row
the list of its cell texts). -/
def scrapeMorimoriE {ε : Type} (f : String → Except ε (List Char))
    (rowsOfHtml : List Char → List (List (List Char))) :
    Except ε (List ((String × String) × Nat)) := do
  let html ← f MORIMORI_URL
  pure (scrape_morimori_new_prices (rowsOfHtml html))

/-- A file written by `main`: either the diff report or the run metadata
(timestamp from the external clock, source URLs constant, debug counts). -/
inductive OutFile where
  | diffFile (rows : List DiffRow)
  | metaFile (generated_at_jst : String)
      (apple_models morimori_models matched_rows : Nat)
deriving DecidableEq

/-- Embedding of `main` (build_diff.py lines 261-293): scrape both sources
(propagating any fetch error), build the diff rows, and only then write the
two output files. -/
def mainE {ε : Type} (f : String → Except ε (List Char))
    (scriptTextOf : List Char → List Char)
    (rowsOfHtml : List Char → List (List (List Char)))
    (now : String) : Except ε (List (String × OutFile)) := do
  let apple ← scrapeAppleE f scriptTextOf
  let morimori ← scrapeMorimoriE f rowsOfHtml
  let rows := build_diff_rows apple morimori
  pure [("data/diff.json", OutFile.diffFile rows),
        ("data/meta.json", OutFile.metaFile now apple.length morimori.length rows.length)]

/-- The URLs `main` fetches, in execution order (the Pro page is fetched twice
because two models share it). -/
def fetchUrls : List String := APPLE_BUY_PAGES.map Prod.snd ++ [MORIMORI_URL]

/-! ### Properties of the monotonicity-repair pass -/

theorem cleanPass_spec : ∀ (caps : List String) (last : Nat) (temp : List (String × Nat)),
    ((cleanPass caps last temp).map Prod.snd).Pairwise (· ≤ ·)
    ∧ (∀ p ∈ cleanPass caps last temp, temp.lookup p.1 = some p.2 ∧ last ≤ p.2)
    ∧ List.Sublist ((cleanPass caps last temp).map Prod.fst) caps := by
  intro caps
  induction caps with
  | nil => intro last temp; exact ⟨List.Pairwise.nil, by simp [cleanPass], by simp [cleanPass]⟩
  | cons cap caps ih =>
    intro last temp
    cases hl : temp.lookup cap with
    | none =>
      have he : cleanPass (cap :: caps) last temp = cleanPass caps last temp := by
        simp [cleanPass, hl]
      rw [he]
      obtain ⟨h1, h2, h3⟩ := ih last temp
      exact ⟨h1, h2, h3.cons cap⟩
    | some p =>
      have he : cleanPass (cap :: caps) last temp =
          if last ≤ p then (cap, p) :: cleanPass caps p temp
          else cleanPass caps last temp := by
        simp [cleanPass, hl]
      by_cases hp : last ≤ p
      · rw [if_pos hp] at he
        rw [he]
        obtain ⟨h1, h2, h3⟩ := ih p temp
        refine ⟨?_, ?_, h3.cons₂ cap⟩
        · rw [List.map_cons]
          exact List.pairwise_cons.mpr ⟨fun q hq => by
            obtain ⟨r, hr, rfl⟩ := List.mem_map.mp hq
            exact (h2 r hr).2, h1⟩
        · intro q hq
          rcases List.mem_cons.mp hq with rfl | hq'
          · exact ⟨hl, hp⟩
          · obtain ⟨hq1, hq2⟩ := h2 q hq'
            exact ⟨hq1, le_trans hp hq2⟩
      · rw [if_neg hp] at he
        rw [he]
        obtain ⟨h1, h2, h3⟩ := ih last temp
        exact ⟨h1, h2, h3.cons cap⟩

/-- C2: the retailer monotonicity repair visits the tiers in canonical order,
discards a tier whose candidate is below the last accepted price and keeps the
others unchanged, so the accepted prices are non-decreasing in tier order; on
the candidates `{128GB: 129800, 256GB: 149800, 512GB: 120000, 1TB: 189800}` it
accepts exactly `{128GB: 129800, 256GB: 149800, 1TB: 189800}`. -/
theorem monotonicity_repair_spec (temp : List (String × Nat)) :
    ((cleaned temp).map Prod.snd).Pairwise (· ≤ ·)
    ∧ (∀ p ∈ cleaned temp, temp.lookup p.1 = some p.2)
    ∧ List.Sublist ((cleaned temp).map Prod.fst) CAP_ORDER
    ∧ cleaned [("128GB", 129800), ("256GB", 149800), ("512GB", 120000), ("1TB", 189800)]
      = [("128GB", 129800), ("256GB", 149800), ("1TB", 189800)] := by
  obtain ⟨h1, h2, h3⟩ := cleanPass_spec CAP_ORDER 0 temp
  exact ⟨h1, fun p hp => (h2 p hp).1, h3, by decide⟩

/-! ### Model-keyword priority -/

/-- C6: reseller model inference checks the keywords in fixed priority order,
the most specific first: a row containing `"Pro Max"` or `"ProMax"` is always
classified `"iPhone 17 Pro Max"` (never the Pro or base variant), otherwise
`"Pro"` gives the Pro variant, else `"Air"`, else `"iPhone 17"`/`"iPhone17"`
give the base model, and a row with none of the keywords yields no model. -/
theorem model_keyword_priority (row : List Char) :
    ((containsS row "Pro Max" = true ∨ containsS row "ProMax" = true) →
      inferModel row = some "iPhone 17 Pro Max"
      ∧ inferModel row ≠ some "iPhone 17 Pro" ∧ inferModel row ≠ some "iPhone 17")
    ∧ (containsS row "Pro Max" = false → containsS row "ProMax" = false →
        containsS row "Pro" = true → inferModel row = some "iPhone 17 Pro")
    ∧ (containsS row "Pro Max" = false → containsS row "ProMax" = false →
        containsS row "Pro" = false → containsS row "Air" = true →
        inferModel row = some "iPhone Air")
    ∧ (containsS row "Pro Max" = false → containsS row "ProMax" = false →
        containsS row "Pro" = false → containsS row "Air" = false →
        (containsS row "iPhone 17" = true ∨ containsS row "iPhone17" = true) →
        inferModel row = some "iPhone 17")
    ∧ (containsS row "Pro Max" = false → containsS row "ProMax" = false →
        containsS row "Pro" = false → containsS row "Air" = false →
        containsS row "iPhone 17" = false → containsS row "iPhone17" = false →
        inferModel row = none) := by
  refine ⟨?_, ?_, ?_, ?_, ?_⟩
  · intro h
    have hb : (containsS row "Pro Max" || containsS row "ProMax") = true := by
      rcases h with h | h <;> simp [h]
    refine ⟨by simp [inferModel, hb], ?_, ?_⟩ <;> simp [inferModel, hb]
  · intro h1 h2 h3
    simp [inferModel, h1, h2, h3]
  · intro h1 h2 h3 h4
    simp [inferModel, h1, h2, h3, h4]
  · intro h1 h2 h3 h4 h5
    have hb : (containsS row "iPhone 17" || containsS row "iPhone17") = true := by
      rcases h5 with h | h <;> simp [h]
    simp [inferModel, h1, h2, h3, h4, hb]
  · intro h1 h2 h3 h4 h5 h6
    simp [inferModel, h1, h2, h3, h4, h5, h6]

/-- Witness for `model_keyword_priority` at a concrete row containing
`"Pro Max"`, `"Pro"` and `"iPhone 17"` as substrings. -/
theorem model_keyword_priority_witness :
    inferModel "新品 iPhone 17 Pro Max 256GB".toList = some "iPhone 17 Pro Max" :=
  ((model_keyword_priority "新品 iPhone 17 Pro Max 256GB".toList).1 (Or.inl (by decide))).1

/-! ### Fold lemmas for Python `min` / `max` over nonempty lists -/

theorem foldl_min_mem : ∀ (t : List Nat) (h0 : Nat), t.foldl Nat.min h0 ∈ h0 :: t := by
  intro t
  induction t with
  | nil => intro h0; simp [List.foldl]
  | cons a t ih =>
    intro h0
    have h1 := ih (Nat.min h0 a)
    have h2 : (a :: t).foldl Nat.min h0 = t.foldl Nat.min (Nat.min h0 a) := rfl
    rw [h2]
    rcases List.mem_cons.mp h1 with he | ht
    · rw [he]
      rcases le_or_lt h0 a with hle | hlt
      · have hm : Nat.min h0 a = h0 := Nat.min_eq_left hle
        rw [hm]; exact List.mem_cons_self _ _
      · have hm : Nat.min h0 a = a := Nat.min_eq_right (le_of_lt hlt)
        rw [hm]; exact List.mem_cons_of_mem _ (List.mem_cons_self _ _)
    · exact List.mem_cons_of_mem _ (List.mem_cons_of_mem _ ht)

theorem foldl_min_le : ∀ (t : List Nat) (h0 : Nat),
    t.foldl Nat.min h0 ≤ h0 ∧ ∀ q ∈ t, t.foldl Nat.min h0 ≤ q := by
  intro t
  induction t with
  | nil => intro h0; exact ⟨le_rfl, by simp⟩
  | cons a t ih =>
    intro h0
    have h2 : (a :: t).foldl Nat.min h0 = t.foldl Nat.min (Nat.min h0 a) := rfl
    obtain ⟨ih1, ih2⟩ := ih (Nat.min h0 a)
    rw [h2]
    refine ⟨le_trans ih1 (Nat.min_le_left _ _), ?_⟩
    intro q hq
    rcases List.mem_cons.mp hq with rfl | hq'
    · exact le_trans ih1 (Nat.min_le_right _ _)
    · exact ih2 q hq'

theorem foldl_max_mem : ∀ (t : List Nat) (h0 : Nat), t.foldl Nat.max h0 ∈ h0 :: t := by
  intro t
  induction t with
  | nil => intro h0; simp [List.foldl]
  | cons a t ih =>
    intro h0
    have h1 := ih (Nat.max h0 a)
    have h2 : (a :: t).foldl Nat.max h0 = t.foldl Nat.max (Nat.max h0 a) := rfl
    rw [h2]
    rcases List.mem_cons.mp h1 with he | ht
    · rw [he]
      rcases le_or_lt h0 a with hle | hlt
      · have hm : Nat.max h0 a = a := Nat.max_eq_right hle
        rw [hm]; exact List.mem_cons_of_mem _ (List.mem_cons_self _ _)
      · have hm : Nat.max h0 a = h0 := Nat.max_eq_left (le_of_lt hlt)
        rw [hm]; exact List.mem_cons_self _ _
    · exact List.mem_cons_of_mem _ (List.mem_cons_of_mem _ ht)

theorem foldl_max_ge : ∀ (t : List Nat) (h0 : Nat),
    h0 ≤ t.foldl Nat.max h0 ∧ ∀ q ∈ t, q ≤ t.foldl Nat.max h0 := by
  intro t
  induction t with
  | nil => intro h0; exact ⟨le_rfl, by simp⟩
  | cons a t ih =>
    intro h0
    have h2 : (a :: t).foldl Nat.max h0 = t.foldl Nat.max (Nat.max h0 a) := rfl
    obtain ⟨ih1, ih2⟩ := ih (Nat.max h0 a)
    rw [h2]
    refine ⟨le_trans (Nat.le_max_left _ _) ih1, ?_⟩
    intro q hq
    rcases List.mem_cons.mp hq with rfl | hq'
    · exact le_trans (Nat.le_max_right _ _) ih1
    · exact ih2 q hq'

/-! ### `pick_price_after` characterization and the plausibility floor -/

theorem minList_spec : ∀ (l : List Nat) (p : Nat), minList l = some p →
    p ∈ l ∧ ∀ q ∈ l, p ≤ q := by
  intro l p h
  match l with
  | [] => simp [minList] at h
  | y :: t =>
    have hp : t.foldl Nat.min y = p := by simpa [minList] using h
    subst hp
    refine ⟨foldl_min_mem t y, ?_⟩
    intro q hq
    rcases List.mem_cons.mp hq with hrfl | hq'
    · rw [hrfl]; exact (foldl_min_le t y).1
    · exact (foldl_min_le t y).2 q hq'

theorem pick_price_after_some {suf : List Char} {p : Nat}
    (h : pick_price_after suf = some p) :
    p ∈ windowAmounts suf ∧ ∀ q ∈ windowAmounts suf, p ≤ q :=
  minList_spec _ p h

theorem pick_price_after_none (suf : List Char) :
    pick_price_after suf = none ↔ windowAmounts suf = [] := by
  show minList (windowAmounts suf) = none ↔ _
  match hw : windowAmounts suf with
  | [] => simp [minList]
  | y :: t => simp [minList]

theorem windowAmounts_floor {suf : List Char} {p : Nat} (h : p ∈ windowAmounts suf) :
    50000 ≤ p := by
  unfold windowAmounts at h
  simpa using (List.mem_filter.mp h).2

theorem lookup_mem {α β : Type} [DecidableEq α] {l : List (α × β)} {k : α} {v : β}
    (h : l.lookup k = some v) : (k, v) ∈ l := by
  induction l with
  | nil => simp [List.lookup] at h
  | cons kv rest ih =>
    obtain ⟨k', v'⟩ := kv
    by_cases he : k = k'
    · subst he
      simp [List.lookup] at h
      subst h
      exact List.mem_cons_self _ _
    · have : (List.lookup k ((k', v') :: rest)) = rest.lookup k := by
        simp [List.lookup, beq_false_of_ne he]
      rw [this] at h
      exact List.mem_cons_of_mem _ (ih h)

theorem buildTemp_floor : ∀ (occs : List (String × List Char)) (temp : List (String × Nat)),
    (∀ kv ∈ temp, 50000 ≤ kv.2) → ∀ kv ∈ buildTemp occs temp, 50000 ≤ kv.2 := by
  intro occs
  induction occs with
  | nil => intro temp ht kv hkv; exact ht kv hkv
  | cons o rest ih =>
    intro temp ht kv hkv
    obtain ⟨cap, suf⟩ := o
    by_cases hs : (temp.lookup cap).isSome
    · rw [show buildTemp ((cap, suf) :: rest) temp = buildTemp rest temp by
        simp [buildTemp, hs]] at hkv
      exact ih temp ht kv hkv
    · match hp : pick_price_after suf with
      | some p =>
        rw [show buildTemp ((cap, suf) :: rest) temp = buildTemp rest (temp ++ [(cap, p)]) by
          simp [buildTemp, hs, hp]] at hkv
        refine ih _ ?_ kv hkv
        intro kv' hkv'
        rcases List.mem_append.mp hkv' with h' | h'
        · exact ht kv' h'
        · have : kv' = (cap, p) := by simpa using h'
          rw [this]
          exact windowAmounts_floor (pick_price_after_some hp).1
      | none =>
        rw [show buildTemp ((cap, suf) :: rest) temp = buildTemp rest temp by
          simp [buildTemp, hs, hp]] at hkv
        exact ih temp ht kv hkv

/-- C1 (amended): every price in the finished retailer mapping is at least the
plausibility floor of 50000, for every fetch behaviour. -/
theorem retailer_price_floor (scriptOf : String → List Char) :
    ∀ kv ∈ scrape_apple_prices_by_capacity scriptOf, 50000 ≤ kv.2 := by
  intro kv hkv
  unfold scrape_apple_prices_by_capacity at hkv
  obtain ⟨blk, hblk, hkvin⟩ := List.mem_flatten.mp hkv
  obtain ⟨mu, _, rfl⟩ := List.mem_map.mp hblk
  unfold appleEntriesFor at hkvin
  obtain ⟨p, hp, rfl⟩ := List.mem_map.mp hkvin
  have hlook := ((cleanPass_spec CAP_ORDER 0 _).2.1 p hp).1
  have hmem := lookup_mem hlook
  have : (p.1, p.2) ∈ buildTemp (capMatches (scriptOf mu.2)) [] := hmem
  exact buildTemp_floor _ [] (by simp) (p.1, p.2) this

/-- Witness for `retailer_price_floor` at a concrete fetch behaviour. -/
theorem retailer_price_floor_witness :
    (50000 : Nat) ≤ 129800 ∧
      ((("iPhone 17", "128GB"), 129800) ∈
        scrape_apple_prices_by_capacity (fun _ => "128GB: 129,800円".toList)) := by
  have hm : ((("iPhone 17", "128GB"), 129800) ∈
      scrape_apple_prices_by_capacity (fun _ => "128GB: 129,800円".toList)) := by decide
  exact ⟨retailer_price_floor (fun _ => "128GB: 129,800円".toList) _ hm, hm⟩

/-- C1 counterexample: the reseller scraper applies no plausibility floor.  A
brand-new row for a recognized model and capacity whose only yen amount is 99
stores price 99 < 50000 in the finished reseller table. -/
theorem reseller_floor_counterexample :
    scrape_morimori_new_prices [["新品 iPhone 17 Pro 256GB".toList, "99円".toList]]
      = [(("iPhone 17 Pro", "256GB"), 99)] ∧ (99 : Nat) < 50000 := by
  constructor
  · decide
  · decide

/-! ### Reseller accumulation: per-key maximum over qualifying rows -/

theorem foldl_max_shift : ∀ (ys : List Nat) (a b : Nat),
    ys.foldl Nat.max (Nat.max a b) = Nat.max a (ys.foldl Nat.max b) := by
  intro ys
  induction ys with
  | nil => intro a b; rfl
  | cons c ys ih =>
    intro a b
    have h1 : (c :: ys).foldl Nat.max (Nat.max a b) = ys.foldl Nat.max (Nat.max (Nat.max a b) c) := rfl
    have h2 : Nat.max (Nat.max a b) c = Nat.max a (Nat.max b c) := Nat.max_assoc a b c
    rw [h1, h2, ih a (Nat.max b c)]
    rfl

theorem setMax_lookup_self : ∀ (out : List ((String × String) × Nat)) (k : String × String) (p : Nat),
    (setMax out k p).lookup k = some (Nat.max ((out.lookup k).getD 0) p) := by
  intro out
  induction out with
  | nil =>
    intro k p
    simp [setMax, List.lookup, Nat.zero_max]
  | cons kv rest ih =>
    intro k p
    obtain ⟨k', v⟩ := kv
    by_cases he : k' = k
    · subst he
      simp [setMax, List.lookup]
    · have h1 : setMax ((k', v) :: rest) k p = (k', v) :: setMax rest k p := by
        simp [setMax, he]
      rw [h1]
      have hb : (k == k') = false := beq_false_of_ne (Ne.symm he)
      simp [List.lookup, hb, ih k p]

theorem setMax_lookup_other : ∀ (out : List ((String × String) × Nat)) (k : String × String)
    (p : Nat) (k' : String × String), k' ≠ k →
    (setMax out k p).lookup k' = out.lookup k' := by
  intro out
  induction out with
  | nil =>
    intro k p k' hne
    simp [setMax, List.lookup, beq_false_of_ne hne]
  | cons kv rest ih =>
    intro k p k' hne
    obtain ⟨k0, v⟩ := kv
    by_cases he : k0 = k
    · subst he
      have hb : (k' == k0) = false := beq_false_of_ne hne
      simp [setMax, List.lookup, hb]
    · have h1 : setMax ((k0, v) :: rest) k p = (k0, v) :: setMax rest k p := by
        simp [setMax, he]
      rw [h1]
      by_cases hk0 : k' = k0
      · subst hk0
        simp [List.lookup]
      · have hb : (k' == k0) = false := beq_false_of_ne hk0
        simp [List.lookup, hb, ih k p k' hne]

/-- The contribution of one table row, following the spec's reading: a
qualifying row — non-empty, row-string containing the brand-new marker, a
capacity token, a recognized model keyword and at least one yen amount —
contributes the maximum yen amount of its row-string under its
`(model, capacity)` key; any other row contributes nothing. -/
def rowContribution (cols : List (List Char)) : Option ((String × String) × Nat) :=
  if cols.isEmpty then none
  else
    let row := rowString cols
    if containsS row "新品" then
      match extract_capacity row, inferModel row, parse_yen_values row with
      | some cap, some model, y :: ys => some ((model, cap), ys.foldl Nat.max y)
      | _, _, _ => none
    else none

theorem processRow_eq (out : List ((String × String) × Nat)) (cols : List (List Char)) :
    processRow out cols =
      match rowContribution cols with
      | none => out
      | some kp => setMax out kp.1 kp.2 := by
  by_cases h0 : cols.isEmpty
  · simp [processRow, rowContribution, h0]
  · by_cases h1 : containsS (rowString cols) "新品"
    · cases hc : extract_capacity (rowString cols) with
      | none => simp [processRow, rowContribution, h0, h1, hc]
      | some cap =>
        cases hm : inferModel (rowString cols) with
        | none => simp [processRow, rowContribution, h0, h1, hc, hm]
        | some model =>
          cases hy : parse_yen_values (rowString cols) with
          | nil => simp [processRow, rowContribution, h0, h1, hc, hm, hy]
          | cons y ys => simp [processRow, rowContribution, h0, h1, hc, hm, hy]
    · simp [processRow, rowContribution, h0, h1]

/-- The representative prices of the qualifying rows carrying `key`, in row
order. -/
def rowPrices (rows : List (List (List Char))) (key : String × String) : List Nat :=
  ((rows.filterMap rowContribution).filter (fun e => e.1 = key)).map Prod.snd

/-- The price the spec assigns to `key`: the maximum row price over all
qualifying rows with that key, `none` when there is no such row. -/
def specPrice (rows : List (List (List Char))) (key : String × String) : Option Nat :=
  match rowPrices rows key with
  | [] => none
  | y :: ys => some (ys.foldl Nat.max y)

/-- Merge of an already-accumulated optional price and an optional new
maximum. -/
def combineMax : Option Nat → Option Nat → Option Nat
  | none, b => b
  | some a, none => some a
  | some a, some b => some (Nat.max a b)

theorem combineMax_none_right : ∀ (a : Option Nat), combineMax a none = a
  | none => rfl
  | some _ => rfl

theorem combineMax_step (A : Option Nat) (ps : List Nat) (p : Nat) :
    combineMax (some (Nat.max (A.getD 0) p))
        (match ps with | [] => none | y :: ys => some (ys.foldl Nat.max y))
      = combineMax A (some (ps.foldl Nat.max p)) := by
  have hz : Nat.max 0 p = p := by cases p <;> rfl
  cases A with
  | none =>
    cases ps with
    | nil => simp [combineMax, hz]
    | cons y ys =>
      show some (Nat.max (Nat.max 0 p) (ys.foldl Nat.max y)) = some ((y :: ys).foldl Nat.max p)
      have h1 : (y :: ys).foldl Nat.max p = ys.foldl Nat.max (Nat.max p y) := rfl
      rw [h1, foldl_max_shift ys p y, hz]
  | some a =>
    cases ps with
    | nil => simp [combineMax]
    | cons y ys =>
      show some (Nat.max (Nat.max a p) (ys.foldl Nat.max y))
        = some (Nat.max a ((y :: ys).foldl Nat.max p))
      have h1 : (y :: ys).foldl Nat.max p = ys.foldl Nat.max (Nat.max p y) := rfl
      have h2 : Nat.max (Nat.max a p) (ys.foldl Nat.max y)
          = Nat.max a (Nat.max p (ys.foldl Nat.max y)) := Nat.max_assoc a p _
      rw [h1, foldl_max_shift ys p y, h2]

theorem scrape_morimori_lookup : ∀ (rows : List (List (List Char)))
    (out : List ((String × String) × Nat)) (key : String × String),
    (rows.foldl processRow out).lookup key = combineMax (out.lookup key) (specPrice rows key) := by
  intro rows
  induction rows with
  | nil =>
    intro out key
    show out.lookup key = combineMax (out.lookup key) (specPrice [] key)
    have h1 : specPrice [] key = none := rfl
    rw [h1, combineMax_none_right]
  | cons r rows ih =>
    intro out key
    have h0 : (r :: rows).foldl processRow out = rows.foldl processRow (processRow out r) := rfl
    rw [h0, ih (processRow out r) key]
    cases hr : rowContribution r with
    | none =>
      have h1 : processRow out r = out := by rw [processRow_eq, hr]
      have h2 : rowPrices (r :: rows) key = rowPrices rows key := by
        simp [rowPrices, List.filterMap_cons, hr]
      have h3 : specPrice (r :: rows) key = specPrice rows key := by
        simp [specPrice, h2]
      rw [h1, h3]
    | some kp =>
      obtain ⟨k, p⟩ := kp
      have h1 : processRow out r = setMax out k p := by rw [processRow_eq, hr]
      rw [h1]
      by_cases hk : k = key
      · subst hk
        have h2 : rowPrices (r :: rows) k = p :: rowPrices rows k := by
          simp [rowPrices, List.filterMap_cons, hr]
        have h3 : specPrice (r :: rows) k
            = some ((rowPrices rows k).foldl Nat.max p) := by
          simp [specPrice, h2]
        rw [setMax_lookup_self, h3]
        have h4 := combineMax_step (out.lookup k) (rowPrices rows k) p
        rw [show (match rowPrices rows k with
              | [] => none
              | y :: ys => some (ys.foldl Nat.max y)) = specPrice rows k from rfl] at h4
        exact h4
      · have h2 : rowPrices (r :: rows) key = rowPrices rows key := by
          simp [rowPrices, List.filterMap_cons, hr, hk]
        have h3 : specPrice (r :: rows) key = specPrice rows key := by
          simp [specPrice, h2]
        rw [setMax_lookup_other out k p key (fun he => hk he.symm), h3]

/-- C5: each qualifying reseller row contributes the maximum yen amount of its
row-string, and the finished reseller price of a key is the maximum such row
price over all qualifying rows with that key (no row: no entry). -/
theorem reseller_row_max (rows : List (List (List Char))) (key : String × String) :
    (scrape_morimori_new_prices rows).lookup key = specPrice rows key
    ∧ (∀ (cols : List (List Char)) (kp : (String × String) × Nat),
        rowContribution cols = some kp →
          kp.2 ∈ parse_yen_values (rowString cols)
          ∧ ∀ q ∈ parse_yen_values (rowString cols), q ≤ kp.2) := by
  constructor
  · have h := scrape_morimori_lookup rows [] key
    simpa [scrape_morimori_new_prices, List.lookup, combineMax] using h
  · intro cols kp h
    unfold rowContribution at h
    by_cases h0 : cols.isEmpty
    · simp [h0] at h
    · simp only [h0, if_false, Bool.false_eq_true] at h
      by_cases h1 : containsS (rowString cols) "新品"
      · simp only [h1, if_true] at h
        cases hc : extract_capacity (rowString cols) with
        | none => rw [hc] at h; simp at h
        | some cap =>
          rw [hc] at h
          cases hm : inferModel (rowString cols) with
          | none => rw [hm] at h; simp at h
          | some model =>
            rw [hm] at h
            cases hy : parse_yen_values (rowString cols) with
            | nil => rw [hy] at h; simp at h
            | cons y ys =>
              rw [hy] at h
              simp only [Option.some.injEq] at h
              subst h
              refine ⟨foldl_max_mem ys y, ?_⟩
              intro q hq
              rcases List.mem_cons.mp hq with hrfl | hq'
              · rw [hrfl]; exact (foldl_max_ge ys y).1
              · exact (foldl_max_ge ys y).2 q hq'
      · simp [h1] at h

/-- Witness for `reseller_row_max` at a concrete qualifying row with two yen
amounts. -/
theorem reseller_row_max_witness :
    2000 ∈ parse_yen_values (rowString ["新品 iPhone Air 128GB 1,000円 2,000円".toList])
    ∧ ∀ q ∈ parse_yen_values (rowString ["新品 iPhone Air 128GB 1,000円 2,000円".toList]),
        q ≤ 2000 :=
  (reseller_row_max [] ("x", "y")).2 ["新品 iPhone Air 128GB 1,000円 2,000円".toList]
    (("iPhone Air", "128GB"), 2000) (by decide)

/-! ### Retailer window selection -/

theorem buildTemp_lookup : ∀ (occs : List (String × List Char)) (temp : List (String × Nat))
    (cap : String),
    (buildTemp occs temp).lookup cap =
      match temp.lookup cap with
      | some v => some v
      | none => ((occs.filter (fun o => o.1 = cap)).findSome? (fun o => pick_price_after o.2)) := by
  intro occs
  induction occs with
  | nil =>
    intro temp cap
    show temp.lookup cap = _
    cases temp.lookup cap <;> simp
  | cons o rest ih =>
    intro temp cap
    obtain ⟨c, suf⟩ := o
    by_cases hs : (temp.lookup c).isSome
    · rw [show buildTemp ((c, suf) :: rest) temp = buildTemp rest temp by
        simp [buildTemp, hs]]
      rw [ih temp cap]
      by_cases hc : c = cap
      · subst hc
        obtain ⟨v, hv⟩ := Option.isSome_iff_exists.mp hs
        rw [hv]
      · have hf : ((c, suf) :: rest).filter (fun o => o.1 = cap)
            = rest.filter (fun o => o.1 = cap) := by
          simp [List.filter_cons, hc]
        rw [hf]
    · have hnone : temp.lookup c = none := by
        cases ht : temp.lookup c
        · rfl
        · rw [ht] at hs; simp at hs
      cases hp : pick_price_after suf with
      | some p =>
        rw [show buildTemp ((c, suf) :: rest) temp = buildTemp rest (temp ++ [(c, p)]) by
          simp [buildTemp, hs, hp]]
        rw [ih (temp ++ [(c, p)]) cap, List.lookup_append]
        by_cases hc : c = cap
        · subst hc
          rw [hnone]
          have h1 : ([(c, p)].lookup c) = some p := by simp
          rw [h1]
          have hf : ((c, suf) :: rest).filter (fun o => o.1 = c)
              = (c, suf) :: rest.filter (fun o => o.1 = c) := by
            simp [List.filter_cons]
          rw [hf, List.findSome?_cons, hp]
          rfl
        · have h1 : ([(c, p)].lookup cap) = none := by
            simp [List.lookup, beq_false_of_ne (fun he => hc he.symm)]
          rw [h1]
          have hf : ((c, suf) :: rest).filter (fun o => o.1 = cap)
              = rest.filter (fun o => o.1 = cap) := by
            simp [List.filter_cons, hc]
          rw [hf]
          cases temp.lookup cap <;> simp
      | none =>
        rw [show buildTemp ((c, suf) :: rest) temp = buildTemp rest temp by
          simp [buildTemp, hs, hp]]
        rw [ih temp cap]
        by_cases hc : c = cap
        · subst hc
          rw [hnone]
          have hf : ((c, suf) :: rest).filter (fun o => o.1 = c)
              = (c, suf) :: rest.filter (fun o => o.1 = c) := by
            simp [List.filter_cons]
          rw [hf, List.findSome?_cons, hp]
        · have hf : ((c, suf) :: rest).filter (fun o => o.1 = cap)
              = rest.filter (fun o => o.1 = cap) := by
            simp [List.filter_cons, hc]
          rw [hf]

/-- C3: for each capacity token of the concatenated script text, visited in
order of appearance and only while no price is recorded yet for that capacity,
the candidate is the minimum amount `≥ 50000` parsed from the 2000-character
window at the match end; a windowless occurrence contributes nothing and a
later occurrence of the same capacity can still supply the entry.  Hence the
recorded price for a capacity is the first successful window pick among its
occurrences. -/
theorem retailer_window_selection (text : List Char) (cap : String) :
    (buildTemp (capMatches text) []).lookup cap
      = (((capMatches text).filter (fun o => o.1 = cap)).findSome?
          (fun o => pick_price_after o.2))
    ∧ (∀ (suf : List Char) (p : Nat), pick_price_after suf = some p →
        p ∈ windowAmounts suf ∧ ∀ q ∈ windowAmounts suf, p ≤ q)
    ∧ (∀ suf : List Char, pick_price_after suf = none ↔ windowAmounts suf = []) := by
  refine ⟨?_, fun suf p h => pick_price_after_some h, fun suf => pick_price_after_none suf⟩
  rw [buildTemp_lookup (capMatches text) [] cap]
  rfl

/-- Witness for `retailer_window_selection`: in a concrete window holding the
amounts 100000 and 60000, the pick is their minimum. -/
theorem retailer_window_selection_witness :
    60000 ∈ windowAmounts "100,000円 60,000円".toList
    ∧ ∀ q ∈ windowAmounts "100,000円 60,000円".toList, 60000 ≤ q :=
  (retailer_window_selection [] "x").2.1 "100,000円 60,000円".toList 60000 (by decide)

/-! ### Capacity vocabulary is closed for both scans -/

theorem orElse_some_elim {α : Type} {a : Option α} {f : Unit → Option α} {r : α}
    (h : a.orElse f = some r) : a = some r ∨ (a = none ∧ f () = some r) := by
  cases a with
  | some x => left; exact h
  | none => right; exact ⟨rfl, h⟩

theorem tryAlt_canon {digits letters : List Char} {canon : String} {s : List Char}
    {r : String} (h : tryAlt digits letters canon s = some r) : r = canon := by
  unfold tryAlt at h
  split at h
  · simp at h
  · split at h
    · simp at h
    · split at h
      · injection h with h1; exact h1.symm
      · simp at h

theorem tryCapAt_closed {s : List Char} {r : String} (h : tryCapAt s = some r) :
    r ∈ CAP_ORDER := by
  unfold tryCapAt at h
  rcases orElse_some_elim h with h1 | ⟨-, h⟩
  · rw [tryAlt_canon h1]; decide
  rcases orElse_some_elim h with h2 | ⟨-, h⟩
  · rw [tryAlt_canon h2]; decide
  rcases orElse_some_elim h with h3 | ⟨-, h⟩
  · rw [tryAlt_canon h3]; decide
  rcases orElse_some_elim h with h4 | ⟨-, h⟩
  · rw [tryAlt_canon h4]; decide
  · rw [tryAlt_canon h]; decide

theorem extractCapacityAux_closed : ∀ (s : List Char) (w : Bool) (r : String),
    extractCapacityAux s w = some r → r ∈ CAP_ORDER := by
  intro s
  induction s with
  | nil => intro w r h; simp [extractCapacityAux] at h
  | cons c rest ih =>
    intro w r h
    unfold extractCapacityAux at h
    by_cases hw : w
    · rw [if_pos hw] at h
      exact ih (isWordC c) r h
    · rw [if_neg hw] at h
      cases h1 : tryCapAt (c :: rest) with
      | some cap => rw [h1] at h; injection h with h1e; exact h1e ▸ tryCapAt_closed h1
      | none => rw [h1] at h; exact ih (isWordC c) r h

theorem tryLit_canon {w : List Char} {canon : String} {s : List Char}
    {out : String × List Char} (h : tryLit w canon s = some out) : out.1 = canon := by
  unfold tryLit at h
  split at h
  · simp at h
  · split at h
    · injection h with h1; rw [← h1]
    · simp at h

theorem tryVocab_closed {s : List Char} {out : String × List Char}
    (h : tryVocab s = some out) : out.1 ∈ CAP_ORDER := by
  unfold tryVocab at h
  rcases orElse_some_elim h with h1 | ⟨-, h⟩
  · rw [tryLit_canon h1]; decide
  rcases orElse_some_elim h with h2 | ⟨-, h⟩
  · rw [tryLit_canon h2]; decide
  rcases orElse_some_elim h with h3 | ⟨-, h⟩
  · rw [tryLit_canon h3]; decide
  rcases orElse_some_elim h with h4 | ⟨-, h⟩
  · rw [tryLit_canon h4]; decide
  · rw [tryLit_canon h]; decide

theorem capAux_closed : ∀ (fuel : Nat) (l : List Char) (w : Bool),
    ∀ hit ∈ capAux fuel l w, hit.1 ∈ CAP_ORDER := by
  intro fuel
  induction fuel with
  | zero => intro l w hit h; simp [capAux] at h
  | succ f ih =>
    intro l w hit h
    cases l with
    | nil => simp [capAux] at h
    | cons c rest =>
      unfold capAux at h
      by_cases hw : w
      · rw [if_pos hw] at h
        exact ih rest (isWordC c) hit h
      · rw [if_neg hw] at h
        cases h1 : tryVocab (c :: rest) with
        | some o =>
          rw [h1] at h
          rcases List.mem_cons.mp h with hrfl | h'
          · rw [hrfl]
            exact tryVocab_closed (by rw [h1])
          · exact ih o.2 true hit h'
        | none =>
          rw [h1] at h
          exact ih rest (isWordC c) hit h

/-- C8 counterexample: internal-whitespace tolerance does not hold for the
retailer script scan.  `"256 G B"` yields `"256GB"` under `extract_capacity`
but no match at all under the retailer capacity scan. -/
theorem capacity_scan_counterexample :
    extract_capacity "256 G B".toList = some "256GB"
    ∧ capMatches "256 G B".toList = [] := by
  constructor
  · decide
  · decide

/-- C8 (amended): capacity extraction is case-insensitive, matches only the
closed vocabulary `{128GB, 256GB, 512GB, 1TB, 2TB}` and returns the canonical
uppercase form for both scans, and `"3TB"` matches in neither; but only the
reseller extractor `extract_capacity` tolerates internal whitespace —
`"256 G B"` yields `"256GB"` there, while the retailer script scan requires a
contiguous token and finds nothing in `"256 G B"`. -/
theorem capacity_extraction_spec :
    (∀ (s : List Char) (r : String), extract_capacity s = some r → r ∈ CAP_ORDER)
    ∧ (∀ (l : List Char), ∀ hit ∈ capMatches l, hit.1 ∈ CAP_ORDER)
    ∧ extract_capacity "256 G B".toList = some "256GB"
    ∧ extract_capacity "256GB".toList = some "256GB"
    ∧ extract_capacity "256gb".toList = some "256GB"
    ∧ extract_capacity "3TB".toList = none
    ∧ (capMatches "256GB".toList).map Prod.fst = ["256GB"]
    ∧ (capMatches "256gb".toList).map Prod.fst = ["256GB"]
    ∧ capMatches "3TB".toList = []
    ∧ capMatches "256 G B".toList = [] := by
  refine ⟨?_, ?_, by decide, by decide, by decide, by decide, by decide, by decide,
    by decide, by decide⟩
  · intro s r h
    exact extractCapacityAux_closed s false r h
  · intro l hit h
    exact capAux_closed l.length l false hit h

/-- Witness for `capacity_extraction_spec`: the closed-vocabulary conjunct at
a concrete lower-case input. -/
theorem capacity_extraction_spec_witness : ("1TB" : String) ∈ CAP_ORDER :=
  capacity_extraction_spec.1 "x 1tb y".toList "1TB" (by decide)

/-! ### The Pro and Pro Max rows share one source URL -/

theorem lookup_tagged : ∀ (l : List (String × Nat)) (m m' c : String),
    ((l.map (fun p => ((m, p.1), p.2))).lookup (m', c))
      = if m' = m then l.lookup c else none := by
  intro l
  induction l with
  | nil => intro m m' c; by_cases h : m' = m <;> simp [List.lookup, h]
  | cons p rest ih =>
    intro m m' c
    obtain ⟨a, b⟩ := p
    by_cases hm : m' = m
    · subst hm
      by_cases hcap : c = a
      · subst hcap
        simp [List.lookup]
      · have hb : ((m', c) == (m', a)) = false :=
          beq_false_of_ne (by simp [hcap])
        have hb2 : (c == a) = false := beq_false_of_ne hcap
        simp [List.lookup, hb, hb2, ih m' m' c]
    · have hb : ((m', c) == (m, a)) = false :=
        beq_false_of_ne (by simp [hm])
      simp [List.lookup, hb, ih m m' c, hm]

/-- C7: because `APPLE_BUY_PAGES` maps `"iPhone 17 Pro"` and
`"iPhone 17 Pro Max"` to the same URL, under every fetch behaviour the
retailer mapping contains `("iPhone 17 Pro", c)` exactly when it contains
`("iPhone 17 Pro Max", c)`, with equal prices (equal `lookup` results). -/
theorem pro_shares_pro_max_price (scriptOf : String → List Char) (c : String) :
    (scrape_apple_prices_by_capacity scriptOf).lookup ("iPhone 17 Pro", c)
      = (scrape_apple_prices_by_capacity scriptOf).lookup ("iPhone 17 Pro Max", c) := by
  have e1 : ("iPhone 17 Pro" : String) ≠ "iPhone 17" := by decide
  have e2 : ("iPhone 17 Pro" : String) ≠ "iPhone 17 Pro Max" := by decide
  have e3 : ("iPhone 17 Pro" : String) ≠ "iPhone Air" := by decide
  have e4 : ("iPhone 17 Pro Max" : String) ≠ "iPhone 17" := by decide
  have e5 : ("iPhone 17 Pro Max" : String) ≠ "iPhone 17 Pro" := by decide
  have e6 : ("iPhone 17 Pro Max" : String) ≠ "iPhone Air" := by decide
  simp only [scrape_apple_prices_by_capacity, APPLE_BUY_PAGES, appleEntriesFor,
    List.map_cons, List.map_nil, List.flatten_cons, List.flatten_nil, List.append_nil,
    List.lookup_append, lookup_tagged, if_neg e1, if_neg e2, if_neg e3, if_neg e4,
    if_neg e5, if_neg e6, if_pos rfl]
  rfl

/-! ### Faithfulness of the currency token extractor -/

theorem afterRun_sublist (rest : List Char) : List.Sublist (afterRun rest) rest :=
  (List.dropWhile_sublist isWsC).trans (List.dropWhile_sublist isDigitComma)

theorem yen_no_marker : ∀ (fuel : Nat) (l : List Char), '円' ∉ l →
    yenAux fuel l = [] := by
  intro fuel
  induction fuel with
  | zero => intro l _; cases l <;> rfl
  | succ f ih =>
    intro l h
    cases l with
    | nil => rfl
    | cons c rest =>
      have hrest : '円' ∉ rest := fun hm => h (List.mem_cons_of_mem _ hm)
      show yenAux (f + 1) (c :: rest) = []
      simp only [yenAux]
      by_cases hd : isDigitC c
      · rw [if_pos hd]
        by_cases hy : (afterRun rest).head? = some '円'
        · exfalso
          have h1 : '円' ∈ afterRun rest := by
            cases ha : afterRun rest with
            | nil => rw [ha] at hy; simp at hy
            | cons a t =>
              rw [ha] at hy
              have ha2 : a = '円' := by simpa using hy
              rw [ha2]
              exact List.mem_cons_self _ _
          exact hrest ((afterRun_sublist rest).subset h1)
        · rw [if_neg hy]
          exact ih rest hrest
      · rw [if_neg hd]
        exact ih rest hrest

theorem yenAux_shape : ∀ (fuel : Nat) (l : List Char), ∀ t ∈ yenAux fuel l,
    ∃ d tr pre ws rest, t = d :: tr ∧ isDigitC d = true
      ∧ (∀ c ∈ tr, isDigitComma c = true) ∧ (∀ c ∈ ws, isWsC c = true)
      ∧ l = pre ++ t ++ ws ++ '円' :: rest := by
  intro fuel
  induction fuel with
  | zero => intro l t ht; simp [yenAux] at ht
  | succ f ih =>
    intro l t ht
    cases l with
    | nil => simp [yenAux] at ht
    | cons c rest =>
      rw [show yenAux (f + 1) (c :: rest) =
          (if isDigitC c then
            if (afterRun rest).head? = some '円' then
              (c :: rest.takeWhile isDigitComma) :: yenAux f (afterRun rest).tail
            else yenAux f rest
          else yenAux f rest) from rfl] at ht
      by_cases hd : isDigitC c
      · rw [if_pos hd] at ht
        by_cases hy : (afterRun rest).head? = some '円'
        · rw [if_pos hy] at ht
          have hsplit1 : rest.takeWhile isDigitComma ++ rest.dropWhile isDigitComma = rest :=
            List.takeWhile_append_dropWhile isDigitComma rest
          have hsplit2 : (rest.dropWhile isDigitComma).takeWhile isWsC ++ afterRun rest
              = rest.dropWhile isDigitComma :=
            List.takeWhile_append_dropWhile isWsC (rest.dropWhile isDigitComma)
          have hyen : afterRun rest = '円' :: (afterRun rest).tail := by
            cases ha : afterRun rest with
            | nil => rw [ha] at hy; simp at hy
            | cons a tl =>
              rw [ha] at hy
              have ha2 : a = '円' := by simpa using hy
              rw [ha2]
              rfl
          have hrest2 : rest = rest.takeWhile isDigitComma
              ++ ((rest.dropWhile isDigitComma).takeWhile isWsC
                ++ '円' :: (afterRun rest).tail) := by
            rw [← hyen, hsplit2, hsplit1]
          rcases List.mem_cons.mp ht with hrfl | ht'
          · refine ⟨c, rest.takeWhile isDigitComma, [],
              (rest.dropWhile isDigitComma).takeWhile isWsC, (afterRun rest).tail,
              hrfl, hd, ?_, ?_, ?_⟩
            · intro x hx; exact List.mem_takeWhile_imp hx
            · intro x hx; exact List.mem_takeWhile_imp hx
            · rw [hrfl]
              simp only [List.nil_append, List.cons_append, List.append_assoc]
              rw [← hrest2]
          · obtain ⟨d, tr, pre, ws, rest', h1, h2, h3, h4, h5⟩ := ih _ t ht'
            refine ⟨d, tr, c :: (rest.takeWhile isDigitComma
              ++ ((rest.dropWhile isDigitComma).takeWhile isWsC ++ '円' :: pre)),
              ws, rest', h1, h2, h3, h4, ?_⟩
            rw [show (c :: rest : List Char) = c :: (rest.takeWhile isDigitComma
              ++ ((rest.dropWhile isDigitComma).takeWhile isWsC
                ++ '円' :: (afterRun rest).tail)) by rw [← hrest2], h5]
            simp only [List.cons_append, List.append_assoc]
        · rw [if_neg hy] at ht
          obtain ⟨d, tr, pre, ws, rest', h1, h2, h3, h4, h5⟩ := ih rest t ht
          exact ⟨d, tr, c :: pre, ws, rest', h1, h2, h3, h4, by rw [h5]; simp⟩
      · rw [if_neg hd] at ht
        obtain ⟨d, tr, pre, ws, rest', h1, h2, h3, h4, h5⟩ := ih rest t ht
        exact ⟨d, tr, c :: pre, ws, rest', h1, h2, h3, h4, by rw [h5]; simp⟩

/-- C9: `parse_yen_values` returns, in order of appearance, one integer per
matched substring — a digit followed by digits or separators, then optional
whitespace, then the `円` marker — each integer being the digit sequence of
that substring with separators removed (`tokenVal`); `"129,800円 and 99円"`
yields `[129800, 99]`, a text without the marker yields `[]`, and the function
is total. -/
theorem currency_extractor_spec (l : List Char) :
    parse_yen_values "129,800円 and 99円".toList = [129800, 99]
    ∧ parse_yen_values l = (yenTokens l).map tokenVal
    ∧ (∀ t ∈ yenTokens l, ∃ d tr pre ws rest, t = d :: tr ∧ isDigitC d = true
        ∧ (∀ c ∈ tr, isDigitComma c = true) ∧ (∀ c ∈ ws, isWsC c = true)
        ∧ l = pre ++ t ++ ws ++ '円' :: rest)
    ∧ ('円' ∉ l → parse_yen_values l = []) := by
  refine ⟨by decide, rfl, ?_, ?_⟩
  · intro t ht
    exact yenAux_shape l.length l t ht
  · intro h
    show (yenTokens l).map tokenVal = []
    rw [show yenTokens l = yenAux l.length l from rfl, yen_no_marker l.length l h]
    rfl

/-- Witness for `currency_extractor_spec`: a marker-free text yields the empty
sequence, and the token decomposition at a concrete match. -/
theorem currency_extractor_spec_witness :
    parse_yen_values "no price here 123".toList = [] :=
  (currency_extractor_spec "no price here 123".toList).2.2.2 (by decide)

/-! ### Fetch failures abort the run before any file is written -/

theorem except_bind_error {ε α β : Type} (e : ε) (g : α → Except ε β) :
    ((Except.error e : Except ε α) >>= g) = Except.error e := rfl

theorem except_bind_ok {ε α β : Type} (a : α) (g : α → Except ε β) :
    ((Except.ok a : Except ε α) >>= g) = g a := rfl

theorem except_map_error {ε α β : Type} (g : α → β) (e : ε) :
    (g <$> (Except.error e : Except ε α)) = Except.error e := rfl

theorem except_map_ok {ε α β : Type} (g : α → β) (a : α) :
    (g <$> (Except.ok a : Except ε α)) = Except.ok (g a) := rfl

/-- C10: if any fetch of a source URL fails, the run is an `Except.error`
carrying an error some fetch produced — the error propagates and, since the
two output files exist only in the success value of `mainE`, neither
`data/diff.json` nor `data/meta.json` is written. -/
theorem fetch_failure_aborts {ε : Type} (f : String → Except ε (List Char))
    (scriptTextOf : List Char → List Char)
    (rowsOfHtml : List Char → List (List (List Char))) (now : String)
    (h : ∃ u ∈ fetchUrls, (f u).isOk = false) :
    ∃ e, mainE f scriptTextOf rowsOfHtml now = Except.error e
      ∧ ∃ u ∈ fetchUrls, f u = Except.error e := by
  cases hf1 : f "https://www.apple.com/jp/shop/buy-iphone/iphone-17" with
  | error e =>
    refine ⟨e, ?_, "https://www.apple.com/jp/shop/buy-iphone/iphone-17",
      by simp [fetchUrls, APPLE_BUY_PAGES], hf1⟩
    simp [mainE, scrapeAppleE, APPLE_BUY_PAGES, List.foldlM, hf1, except_bind_error, except_bind_ok, except_map_error, except_map_ok]
  | ok t1 =>
  cases hf2 : f "https://www.apple.com/jp/shop/buy-iphone/iphone-17-pro" with
  | error e =>
    refine ⟨e, ?_, "https://www.apple.com/jp/shop/buy-iphone/iphone-17-pro",
      by simp [fetchUrls, APPLE_BUY_PAGES], hf2⟩
    simp [mainE, scrapeAppleE, APPLE_BUY_PAGES, List.foldlM, hf1, hf2, except_bind_error, except_bind_ok, except_map_error, except_map_ok]
  | ok t2 =>
  cases hf4 : f "https://www.apple.com/jp/shop/buy-iphone/iphone-air" with
  | error e =>
    refine ⟨e, ?_, "https://www.apple.com/jp/shop/buy-iphone/iphone-air",
      by simp [fetchUrls, APPLE_BUY_PAGES], hf4⟩
    simp [mainE, scrapeAppleE, APPLE_BUY_PAGES, List.foldlM, hf1, hf2, hf4, except_bind_error, except_bind_ok, except_map_error, except_map_ok]
  | ok t4 =>
  cases hf5 : f MORIMORI_URL with
  | error e =>
    refine ⟨e, ?_, MORIMORI_URL, by simp [fetchUrls], hf5⟩
    simp [mainE, scrapeAppleE, scrapeMorimoriE, APPLE_BUY_PAGES, List.foldlM,
      hf1, hf2, hf4, hf5, except_bind_error, except_bind_ok, except_map_error,
      except_map_ok]
  | ok t5 =>
    exfalso
    obtain ⟨u, hu, hfu⟩ := h
    simp only [fetchUrls, APPLE_BUY_PAGES, List.map_cons, List.map_nil, List.cons_append,
      List.nil_append, List.mem_cons, List.not_mem_nil, or_false] at hu
    rcases hu with rfl | rfl | rfl | rfl | rfl
    · rw [hf1] at hfu; exact absurd hfu (by simp [Except.isOk, Except.toBool])
    · rw [hf2] at hfu; exact absurd hfu (by simp [Except.isOk, Except.toBool])
    · rw [hf2] at hfu; exact absurd hfu (by simp [Except.isOk, Except.toBool])
    · rw [hf4] at hfu; exact absurd hfu (by simp [Except.isOk, Except.toBool])
    · rw [hf5] at hfu; exact absurd hfu (by simp [Except.isOk, Except.toBool])

/-- Witness for `fetch_failure_aborts` with a fetch behaviour that fails on
every URL. -/
theorem fetch_failure_aborts_witness :
    ∃ e, mainE (ε := String) (fun _ => Except.error "boom")
        (fun h => h) (fun _ => []) "t" = Except.error e
      ∧ ∃ u ∈ fetchUrls, (fun _ => Except.error "boom" : String → Except String (List Char)) u
          = Except.error e :=
  fetch_failure_aborts (fun _ => Except.error "boom") (fun h => h) (fun _ => []) "t"
    ⟨"https://www.apple.com/jp/shop/buy-iphone/iphone-17",
      by simp [fetchUrls, APPLE_BUY_PAGES], rfl⟩

/-! ### The diff builder: intersection, fields and ordering -/

/-- The strict ascending order on `(model, capacity)` keys (Python tuple
comparison). -/
def keyLTp (a b : String × String) : Prop :=
  a.1 < b.1 ∨ (a.1 = b.1 ∧ a.2 < b.2)

theorem keyLE_iff (a b : String × String) :
    keyLE a b = true ↔ (a.1 < b.1 ∨ (a.1 = b.1 ∧ a.2 ≤ b.2)) := by
  simp [keyLE]

theorem keyLE_trans : ∀ (a b c : String × String),
    keyLE a b → keyLE b c → keyLE a c := by
  intro a b c hab hbc
  rw [keyLE_iff] at *
  rcases hab with h1 | ⟨h1, h1'⟩ <;> rcases hbc with h2 | ⟨h2, h2'⟩
  · exact Or.inl (lt_trans h1 h2)
  · exact Or.inl (h2 ▸ h1)
  · exact Or.inl (h1 ▸ h2)
  · exact Or.inr ⟨h1.trans h2, le_trans h1' h2'⟩

theorem keyLE_total : ∀ (a b : String × String), keyLE a b || keyLE b a := by
  intro a b
  rcases lt_trichotomy a.1 b.1 with h | h | h
  · have h1 : keyLE a b = true := (keyLE_iff a b).mpr (Or.inl h)
    simp [h1]
  · rcases le_total a.2 b.2 with h2 | h2
    · have h1 : keyLE a b = true := (keyLE_iff a b).mpr (Or.inr ⟨h, h2⟩)
      simp [h1]
    · have h1 : keyLE b a = true := (keyLE_iff b a).mpr (Or.inr ⟨h.symm, h2⟩)
      simp [h1]
  · have h1 : keyLE b a = true := (keyLE_iff b a).mpr (Or.inl h)
    simp [h1]

theorem keyLE_antisymm {a b : String × String}
    (hab : keyLE a b = true) (hba : keyLE b a = true) : a = b := by
  rw [keyLE_iff] at hab hba
  rcases hab with h1 | ⟨h1, h1'⟩ <;> rcases hba with h2 | ⟨h2, h2'⟩
  · exact absurd (lt_trans h1 h2) (lt_irrefl _)
  · exact absurd h1 (h2 ▸ lt_irrefl _)
  · exact absurd h2 (h1 ▸ lt_irrefl _)
  · exact Prod.ext h1 (le_antisymm h1' h2')

theorem keyLE_ne_lt {a b : String × String}
    (hab : keyLE a b = true) (hne : a ≠ b) : keyLTp a b := by
  rw [keyLE_iff] at hab
  rcases hab with h1 | ⟨h1, h1'⟩
  · exact Or.inl h1
  · refine Or.inr ⟨h1, lt_of_le_of_ne h1' ?_⟩
    intro h2
    exact hne (Prod.ext h1 h2)

theorem keyLT_or_of_ne {a b : String × String} (hne : a ≠ b) :
    keyLTp a b ∨ keyLTp b a := by
  have := keyLE_total a b
  rcases Bool.or_eq_true_iff.mp this with h | h
  · exact Or.inl (keyLE_ne_lt h hne)
  · exact Or.inr (keyLE_ne_lt h (Ne.symm hne))

theorem diffLE_trans : ∀ (a b c : DiffRow),
    decide (b.diff ≤ a.diff) → decide (c.diff ≤ b.diff) → decide (c.diff ≤ a.diff) := by
  intro a b c hab hbc
  simp only [decide_eq_true_eq] at *
  exact le_trans hbc hab

theorem diffLE_total : ∀ (a b : DiffRow),
    decide (b.diff ≤ a.diff) || decide (a.diff ≤ b.diff) := by
  intro a b
  rcases le_total b.diff a.diff with h | h <;> simp [h]

/-- Pair-order extraction from `Nodup`: two distinct members occur in one of
the two orders. -/
theorem nodup_pair_sublist {α : Type} : ∀ {l : List α}, l.Nodup →
    ∀ {a b : α}, a ∈ l → b ∈ l → a ≠ b →
    List.Sublist [a, b] l ∨ List.Sublist [b, a] l := by
  intro l
  induction l with
  | nil => intro _ a b ha; simp at ha
  | cons c t ih =>
    intro hn a b ha hb hne
    obtain ⟨hc, ht⟩ := List.nodup_cons.mp hn
    rcases List.mem_cons.mp ha with rfl | ha'
    · have hb' : b ∈ t := by
        rcases List.mem_cons.mp hb with rfl | h
        · exact absurd rfl hne
        · exact h
      exact Or.inl ((List.singleton_sublist.mpr hb').cons₂ a)
    · rcases List.mem_cons.mp hb with rfl | hb'
      · exact Or.inr ((List.singleton_sublist.mpr ha').cons₂ b)
      · rcases ih ht ha' hb' hne with h | h
        · exact Or.inl (h.cons c)
        · exact Or.inr (h.cons c)

/-- In a `Nodup` list a pair can occur in only one order. -/
theorem nodup_pair_sublist_antisymm {α : Type} : ∀ {l : List α}, l.Nodup →
    ∀ {a b : α}, List.Sublist [a, b] l → List.Sublist [b, a] l → a = b := by
  intro l
  induction l with
  | nil => intro _ a b h1; cases h1
  | cons c t ih =>
    intro hn a b h1 h2
    obtain ⟨hc, ht⟩ := List.nodup_cons.mp hn
    cases h1 with
    | cons _ h1' =>
      cases h2 with
      | cons _ h2' => exact ih ht h1' h2'
      | cons₂ _ h2' =>
        exfalso
        exact hc (h1'.subset (List.mem_cons_of_mem _ (List.mem_singleton.mpr rfl)))
    | cons₂ _ h1' =>
      cases h2 with
      | cons _ h2' =>
        exfalso
        exact hc (h2'.subset (List.mem_cons_of_mem _ (List.mem_singleton.mpr rfl)))
      | cons₂ _ h2' => rfl

theorem lookup_isSome_mem {l : List ((String × String) × Nat)} {k : String × String} :
    (l.lookup k).isSome = true ↔ k ∈ l.map Prod.fst := by
  rw [List.lookup_isSome_iff]
  simp only [List.mem_map, beq_iff_eq]
  constructor
  · rintro ⟨p, hp, rfl⟩; exact ⟨p, hp, rfl⟩
  · rintro ⟨p, hp, rfl⟩; exact ⟨p, hp, rfl⟩

theorem nodup_filter_eq_length {α : Type} [DecidableEq α] :
    ∀ (l : List α), l.Nodup → ∀ k : α,
      (l.filter (fun x => decide (x = k))).length = if k ∈ l then 1 else 0 := by
  intro l
  induction l with
  | nil => intro _ k; simp
  | cons a t ih =>
    intro hn k
    obtain ⟨hna, hnt⟩ := List.nodup_cons.mp hn
    rw [List.filter_cons]
    by_cases hk : a = k
    · subst hk
      have h2 := ih hnt a
      rw [if_neg hna] at h2
      simp [h2]
    · have hc : (decide (a = k)) = false := by simp [hk]
      rw [hc]
      simp only [Bool.false_eq_true, if_false]
      rw [ih hnt k]
      have hmem : (k ∈ a :: t) ↔ k ∈ t := by
        rw [List.mem_cons]
        constructor
        · rintro (rfl | h)
          · exact absurd rfl hk
          · exact h
        · exact fun h => Or.inr h
      by_cases hm : k ∈ t
      · rw [if_pos hm, if_pos (hmem.mpr hm)]
      · rw [if_neg hm, if_neg (fun h => hm (hmem.mp h))]

theorem interKeys_perm (apple morimori : List ((String × String) × Nat)) :
    List.Perm (interKeys apple morimori)
      ((apple.map Prod.fst).filter (fun k => (morimori.lookup k).isSome)) :=
  List.mergeSort_perm _ _

theorem interKeys_nodup {apple morimori : List ((String × String) × Nat)}
    (ha : (apple.map Prod.fst).Nodup) : (interKeys apple morimori).Nodup :=
  (interKeys_perm apple morimori).nodup_iff.mpr (ha.filter _)

theorem mem_interKeys {apple morimori : List ((String × String) × Nat)}
    {k : String × String} :
    k ∈ interKeys apple morimori ↔
      k ∈ apple.map Prod.fst ∧ k ∈ morimori.map Prod.fst := by
  rw [(interKeys_perm apple morimori).mem_iff, List.mem_filter]
  exact and_congr_right (fun _ => lookup_isSome_mem)

theorem interKeys_pairwise_lt {apple morimori : List ((String × String) × Nat)}
    (ha : (apple.map Prod.fst).Nodup) :
    (interKeys apple morimori).Pairwise keyLTp := by
  have hs : (interKeys apple morimori).Pairwise (fun a b => keyLE a b = true) :=
    List.sorted_mergeSort keyLE_trans keyLE_total _
  have hn : (interKeys apple morimori).Pairwise (fun a b => a ≠ b) :=
    interKeys_nodup ha
  exact (hs.and hn).imp (fun h => keyLE_ne_lt h.1 h.2)

/-- C4: `build_diff_rows` emits exactly one row per key of the intersection of
the two key sets (keys present in only one mapping never appear), each row
carrying the two looked-up prices and `diff = reseller − retailer`, and the
output is ordered by descending diff with ties in ascending `(model,
capacity)` order; it is a function of the two mappings, hence deterministic. -/
theorem build_diff_rows_spec (apple morimori : List ((String × String) × Nat))
    (ha : (apple.map Prod.fst).Nodup) :
    (∀ k : String × String,
      ((build_diff_rows apple morimori).filter
          (fun r => decide ((r.model, r.capacity) = k))).length
        = if k ∈ apple.map Prod.fst ∧ k ∈ morimori.map Prod.fst then 1 else 0)
    ∧ (∀ r ∈ build_diff_rows apple morimori,
        apple.lookup (r.model, r.capacity) = some r.apple_price
        ∧ morimori.lookup (r.model, r.capacity) = some r.morimori_new_price
        ∧ r.diff = (r.morimori_new_price : Int) - (r.apple_price : Int))
    ∧ (build_diff_rows apple morimori).Pairwise (fun x y =>
        y.diff < x.diff
        ∨ (y.diff = x.diff ∧ keyLTp (x.model, x.capacity) (y.model, y.capacity))) := by
  have hperm : List.Perm (build_diff_rows apple morimori)
      ((interKeys apple morimori).map (mkDiffRow apple morimori)) :=
    List.mergeSort_perm _ _
  have hkeymap : ((interKeys apple morimori).map (mkDiffRow apple morimori)).map
      (fun r => (r.model, r.capacity)) = interKeys apple morimori := by
    rw [List.map_map]
    have : ((fun r : DiffRow => (r.model, r.capacity)) ∘ mkDiffRow apple morimori)
        = id := by
      funext k
      show ((mkDiffRow apple morimori k).model, (mkDiffRow apple morimori k).capacity) = k
      show (k.1, k.2) = k
      exact rfl
    rw [this, List.map_id]
  have hnodup0 : ((interKeys apple morimori).map (mkDiffRow apple morimori)).Nodup := by
    apply List.Nodup.of_map (fun r : DiffRow => (r.model, r.capacity))
    rw [hkeymap]
    exact interKeys_nodup ha
  have hnodup : (build_diff_rows apple morimori).Nodup :=
    hperm.nodup_iff.mpr hnodup0
  refine ⟨?_, ?_, ?_⟩
  · intro k
    have h1 : ((build_diff_rows apple morimori).filter
        (fun r => decide ((r.model, r.capacity) = k))).length
        = (((interKeys apple morimori).map (mkDiffRow apple morimori)).filter
            (fun r => decide ((r.model, r.capacity) = k))).length :=
      (hperm.filter _).length_eq
    rw [h1, List.filter_map]
    have h2 : ((fun r : DiffRow => decide ((r.model, r.capacity) = k))
        ∘ mkDiffRow apple morimori) = (fun k' => decide (k' = k)) := by
      funext k'
      show decide (((k'.1 : String), (k'.2 : String)) = k) = decide (k' = k)
      congr
    rw [h2, List.length_map,
      nodup_filter_eq_length (interKeys apple morimori) (interKeys_nodup ha) k]
    by_cases hk : k ∈ interKeys apple morimori
    · rw [if_pos hk, if_pos (mem_interKeys.mp hk)]
    · rw [if_neg hk, if_neg (fun h => hk (mem_interKeys.mpr h))]
  · intro r hr
    have hr0 : r ∈ (interKeys apple morimori).map (mkDiffRow apple morimori) :=
      hperm.subset hr
    obtain ⟨k, hk, rfl⟩ := List.mem_map.mp hr0
    obtain ⟨hka, hkm⟩ := mem_interKeys.mp hk
    have hsa : (apple.lookup k).isSome = true := lookup_isSome_mem.mpr hka
    have hsm : (morimori.lookup k).isSome = true := lookup_isSome_mem.mpr hkm
    have hea : apple.lookup k = some ((apple.lookup k).getD 0) := by
      cases hal : apple.lookup k
      · rw [hal] at hsa; simp at hsa
      · rfl
    have hem : morimori.lookup k = some ((morimori.lookup k).getD 0) := by
      cases hml : morimori.lookup k
      · rw [hml] at hsm; simp at hsm
      · rfl
    refine ⟨?_, ?_, rfl⟩
    · show apple.lookup (k.1, k.2) = some ((apple.lookup k).getD 0)
      exact hea
    · show morimori.lookup (k.1, k.2) = some ((morimori.lookup k).getD 0)
      exact hem
  · have hsorted : (build_diff_rows apple morimori).Pairwise
        (fun x y => decide (y.diff ≤ x.diff) = true) :=
      List.sorted_mergeSort diffLE_trans diffLE_total _
    have hpairkey : ((interKeys apple morimori).map (mkDiffRow apple morimori)).Pairwise
        (fun x y => keyLTp (x.model, x.capacity) (y.model, y.capacity)) := by
      rw [List.pairwise_map]
      exact interKeys_pairwise_lt ha
    rw [List.pairwise_iff_forall_sublist]
    intro x y hxy
    have hle : y.diff ≤ x.diff := by
      have := List.pairwise_iff_forall_sublist.mp hsorted hxy
      simpa using this
    have hne : x ≠ y := List.pairwise_iff_forall_sublist.mp hnodup hxy
    rcases lt_or_eq_of_le hle with hlt | heq
    · exact Or.inl hlt
    · refine Or.inr ⟨heq, ?_⟩
      have hx0 : x ∈ (interKeys apple morimori).map (mkDiffRow apple morimori) :=
        hperm.subset (hxy.subset (List.mem_cons_self _ _))
      have hy0 : y ∈ (interKeys apple morimori).map (mkDiffRow apple morimori) :=
        hperm.subset (hxy.subset (List.mem_cons_of_mem _ (List.mem_singleton.mpr rfl)))
      rcases nodup_pair_sublist hnodup0 hx0 hy0 hne with hsub | hsub
      · exact List.pairwise_iff_forall_sublist.mp hpairkey hsub
      · exfalso
        have hsub' : List.Sublist [y, x] (build_diff_rows apple morimori) :=
          List.pair_sublist_mergeSort diffLE_trans diffLE_total
            (by simp [heq]) hsub
        exact hne (nodup_pair_sublist_antisymm hnodup hxy hsub')

/-- Witness for `build_diff_rows_spec` on the spec's example key sets:
retailer keys `{(A,128GB),(B,256GB)}`, reseller keys `{(A,128GB),(C,512GB)}`;
the diff table has exactly one row for `(A,128GB)`. -/
theorem build_diff_rows_spec_witness :
    ((build_diff_rows [(("A", "128GB"), 100), (("B", "256GB"), 200)]
        [(("A", "128GB"), 150), (("C", "512GB"), 300)]).filter
        (fun r => decide ((r.model, r.capacity) = ("A", "128GB")))).length
      = if ("A", "128GB") ∈ ([(("A", "128GB"), 100), (("B", "256GB"), 200)].map Prod.fst)
          ∧ ("A", "128GB") ∈ ([(("A", "128GB"), 150), (("C", "512GB"), 300)].map Prod.fst)
        then 1 else 0 :=
  (build_diff_rows_spec [(("A", "128GB"), 100), (("B", "256GB"), 200)]
    [(("A", "128GB"), 150), (("C", "512GB"), 300)] (by decide)).1
    ("A", "128GB")

end BuildDiff
